import Mathlib

/-!
Verification of the raycasting engine: a shallow embedding of the grid map,
player movement (src/player.rs), the single-ray DDA caster (src/raycaster.rs),
the frame projection in `render_scene` (src/main.rs), and the batch caster and
camera transform of GR/src/raycasting.rs.  Floating-point values (`f32`/`f64`)
are idealised as real numbers; the IEEE infinity produced by
`1.0 / 0.0`-avoidance in `cast_ray` is modelled by `Option ℝ` with `none`
standing for the infinite sentinel, while the batch caster's finite `1e30`
sentinel is kept as the literal real number.  Machine-integer casts
(`as i8`, `as usize`, `as u16`) are modelled with explicit modular/saturating
arithmetic on `ℤ`/`ℕ`.
-/

set_option maxHeartbeats 1600000

/-- Saturating cast of a float to `usize` (Rust `as usize`): truncation toward
zero for the non-negative values that arise here, negative values clamp to 0
(via `Int.toNat`), and values beyond `usize::MAX` clamp to `2^64 - 1`. -/
noncomputable def floatToUsize (r : ℝ) : ℕ :=
  min (⌊r⌋.toNat) (2 ^ 64 - 1)

/-- Saturating cast of a float to `u16` (Rust `as u16`). -/
noncomputable def u16OfFloat (r : ℝ) : ℕ :=
  min (⌊r⌋.toNat) 65535

/-- Modelled from the spec: the repository's `map.rs` (the `Map` type used by
`main.rs`, `player.rs` and `raycaster.rs`) is not among the sources.  Per
spec §3/§4.1 the map is a rectangular grid of integer cell codes
(0 = empty, nonzero = wall) with `width`/`height` fields, indexed
`(column, row)` with each cell one world unit. -/
structure Map where
  grid : List (List ℕ)
  width : ℕ
  height : ℕ

/-- Cell code at integer grid coordinates (column `cx`, row `cy`).  An
out-of-range lookup is a fatal precondition violation per the spec; it is given
the junk value 0 (empty) here and is never reached under the theorems'
hypotheses. -/
def Map.code (m : Map) (cx cy : ℤ) : ℕ :=
  if 0 ≤ cx ∧ 0 ≤ cy then (m.grid.getD cy.toNat []).getD cx.toNat 0 else 0

/-- Modelled from the spec: `is_wall(x, y)` takes continuous world
coordinates, truncates to the containing cell, and returns whether that cell's
code is non-zero (spec §4.1). -/
noncomputable def Map.is_wall (m : Map) (x y : ℝ) : Bool :=
  decide (m.code ⌊x⌋ ⌊y⌋ ≠ 0)

/-- The grid is fully enclosed by a wall border: every cell on the boundary
rows/columns has a non-zero code. -/
def Map.Bordered (m : Map) : Prop :=
  ∀ cx cy : ℤ, 0 ≤ cx → cx < m.width → 0 ≤ cy → cy < m.height →
    (cx = 0 ∨ cx = (m.width : ℤ) - 1 ∨ cy = 0 ∨ cy = (m.height : ℤ) - 1) →
    m.code cx cy ≠ 0

/-- Player state (src/player.rs): position, facing angle in radians, and field
of view in radians. -/
structure Player where
  x : ℝ
  y : ℝ
  direction : ℝ
  fov : ℝ

/-- `Player::new` (src/player.rs): default field of view of 90 degrees,
converted to radians. -/
noncomputable def Player.new (x y direction : ℝ) : Player :=
  ⟨x, y, direction, 90 * (Real.pi / 180)⟩

/-- `Player::move_forward` (src/player.rs lines 40-53): candidate positions are
computed from the pre-move state; the x-update commits if `(new_x, y)` is not a
wall, then the y-update commits if `(x, new_y)` is not a wall, where `x` is the
possibly already-updated coordinate — exactly as in the source. -/
noncomputable def Player.move_forward (p : Player) (distance : ℝ) (m : Map) : Player :=
  let new_x := p.x + Real.cos p.direction * distance
  let new_y := p.y + Real.sin p.direction * distance
  let x1 := if m.is_wall new_x p.y then p.x else new_x
  let y1 := if m.is_wall x1 new_y then p.y else new_y
  ⟨x1, y1, p.direction, p.fov⟩

/-- `Player::move_backward` (src/player.rs lines 61-74). -/
noncomputable def Player.move_backward (p : Player) (distance : ℝ) (m : Map) : Player :=
  let new_x := p.x - Real.cos p.direction * distance
  let new_y := p.y - Real.sin p.direction * distance
  let x1 := if m.is_wall new_x p.y then p.x else new_x
  let y1 := if m.is_wall x1 new_y then p.y else new_y
  ⟨x1, y1, p.direction, p.fov⟩

/-- `Player::turn_left` (src/player.rs). -/
def Player.turn_left (p : Player) (angle : ℝ) : Player :=
  ⟨p.x, p.y, p.direction - angle, p.fov⟩

/-- `Player::turn_right` (src/player.rs). -/
def Player.turn_right (p : Player) (angle : ℝ) : Player :=
  ⟨p.x, p.y, p.direction + angle, p.fov⟩

/-- `Player::rotate` (src/player.rs). -/
def Player.rotate (p : Player) (angle : ℝ) : Player :=
  ⟨p.x, p.y, p.direction + angle, p.fov⟩

/-- Result state of the single-ray DDA loop of `cast_ray`
(src/raycaster.rs): grid indices, accumulated side distances (with the
post-step increment already applied, as in the source), and the side flag
(`false` = the last step was along x, `true` = along y). -/
structure DDAHit where
  mapX : ℤ
  mapY : ℤ
  sideX : Option ℝ
  sideY : Option ℝ
  side : Bool

/-- Comparison of extended side distances: `none` is the IEEE infinity of
`f64::INFINITY`; an infinite left operand is never strictly smaller. -/
noncomputable def oLt : Option ℝ → Option ℝ → Bool
  | some a, some b => decide (a < b)
  | some _, none => true
  | none, _ => false

/-- Addition of a side distance and a delta distance (infinity absorbs). -/
def oAdd : Option ℝ → Option ℝ → Option ℝ
  | some a, some b => some (a + b)
  | _, _ => none

/-- Scaling a delta distance by the (non-negative) initial fraction.  In
`cast_ray` the factor multiplying an infinite delta is `map + 1 - pos` with
`map = ⌊pos⌋`, which is strictly positive, so the IEEE `0 * ∞ = NaN` case
never arises and `r * ∞ = ∞` is faithful. -/
def omul (r : ℝ) : Option ℝ → Option ℝ
  | some d => some (r * d)
  | none => none

/-- Per-axis delta distance of `cast_ray` (src/raycaster.rs lines 25-34):
`|1 / dir|` for a non-zero direction component, the infinite sentinel
(`f64::INFINITY`, here `none`) otherwise. -/
noncomputable def rayDelta (d : ℝ) : Option ℝ :=
  if d ≠ 0 then some |1 / d| else none

/-- Per-axis integer step of `cast_ray` (src/raycaster.rs lines 37-47):
`-1` for a negative direction component, `+1` otherwise. -/
noncomputable def rayStep (d : ℝ) : ℤ :=
  if d < 0 then -1 else 1

/-- Per-axis initial side distance of `cast_ray` (src/raycaster.rs lines
37-47): distance from the exact position to the first grid line on that axis,
scaled by the delta distance. -/
noncomputable def raySideInit (pos : ℝ) (mapI : ℤ) (d : ℝ) : Option ℝ :=
  if d < 0 then omul (pos - (mapI : ℝ)) (rayDelta d)
  else omul ((mapI : ℝ) + 1 - pos) (rayDelta d)

/-- The `while !hit` DDA loop of `cast_ray` (src/raycaster.rs lines 53-69),
made total with an explicit fuel bound: step along the axis with the smaller
accumulated side distance, advance that grid index, then test the wall. -/
noncomputable def ddaLoop (m : Map) (deltaX deltaY : Option ℝ) (stepX stepY : ℤ) :
    ℕ → ℤ → ℤ → Option ℝ → Option ℝ → Option DDAHit
  | 0, _, _, _, _ => none
  | fuel + 1, mapX, mapY, sideX, sideY =>
    if oLt sideX sideY then
      if m.is_wall ((mapX + stepX : ℤ) : ℝ) (mapY : ℝ) then
        some ⟨mapX + stepX, mapY, oAdd sideX deltaX, sideY, false⟩
      else ddaLoop m deltaX deltaY stepX stepY fuel (mapX + stepX) mapY
        (oAdd sideX deltaX) sideY
    else
      if m.is_wall (mapX : ℝ) ((mapY + stepY : ℤ) : ℝ) then
        some ⟨mapX, mapY + stepY, sideX, oAdd sideY deltaY, true⟩
      else ddaLoop m deltaX deltaY stepX stepY fuel mapX (mapY + stepY)
        sideX (oAdd sideY deltaY)

/-- Setup of `cast_ray` (src/raycaster.rs lines 13-51) followed by the DDA
loop, run with fuel `grid_width + grid_height` (the spec's termination
bound). -/
noncomputable def castRayHit (m : Map) (p : Player) (angle_offset : ℝ) : Option DDAHit :=
  let rayDirX := Real.cos (p.direction + angle_offset)
  let rayDirY := Real.sin (p.direction + angle_offset)
  ddaLoop m (rayDelta rayDirX) (rayDelta rayDirY) (rayStep rayDirX) (rayStep rayDirY)
    (m.width + m.height) ⌊p.x⌋ ⌊p.y⌋
    (raySideInit p.x ⌊p.x⌋ rayDirX) (raySideInit p.y ⌊p.y⌋ rayDirY)

/-- `cast_ray` (src/raycaster.rs lines 71-79): the perpendicular distance is
re-derived in closed form from the hit's map index, the camera position, the
direction component and the step sign of the axis last stepped; the returned
flag is `side == 1`, i.e. whether the wall was crossed on the y axis. -/
noncomputable def cast_ray (m : Map) (p : Player) (angle_offset : ℝ) : Option (ℝ × Bool) :=
  let rayDirX := Real.cos (p.direction + angle_offset)
  let rayDirY := Real.sin (p.direction + angle_offset)
  (castRayHit m p angle_offset).map (fun h =>
    (if h.side = false then
       ((h.mapX : ℝ) - p.x + (1 - (rayStep rayDirX : ℝ)) / 2) / rayDirX
     else ((h.mapY : ℝ) - p.y + (1 - (rayStep rayDirY : ℝ)) / 2) / rayDirY,
     h.side))

/-- `render_scene` (src/main.rs lines 36-41): the wall's screen height,
truncated to `usize` and capped at the framebuffer height. -/
noncomputable def render_wall_height (h : ℕ) (perp : ℝ) : ℕ :=
  min (floatToUsize ((h : ℝ) / perp)) h

/-- `render_scene` (src/main.rs line 43): the first drawn row,
`(h / 2).saturating_sub(wall_height / 2)` (ℕ subtraction saturates). -/
noncomputable def render_start (h : ℕ) (perp : ℝ) : ℕ :=
  h / 2 - render_wall_height h perp / 2

/-- `render_scene` (src/main.rs line 44): one past the last drawn row,
`h / 2 + wall_height / 2`; the drawing loop is `for y in start..end`. -/
noncomputable def render_end (h : ℕ) (perp : ℝ) : ℕ :=
  h / 2 + render_wall_height h perp / 2

/-- Camera state of the batch caster (GR/src/raycasting.rs): world grid of u8
cell codes, position, facing direction and view-plane vector. -/
structure RayCasting where
  world : List (List ℕ)
  pos : ℝ × ℝ
  dir : ℝ × ℝ
  plane : ℝ × ℝ

/-- `self.world[cy][cx]` with the junk value 0 for the out-of-bounds lookups
that would panic in the source. -/
def RayCasting.cell (rc : RayCasting) (cx cy : ℕ) : ℕ :=
  (rc.world.getD cy []).getD cx 0

/-- Wrap an integer into the two's-complement range of `i8`. -/
def wrapI8 (z : ℤ) : ℤ :=
  (z + 128) % 256 - 128

/-- Rust `as i8` on a `usize`: keep the low byte, two's complement. -/
def i8OfUsize (n : ℕ) : ℤ :=
  wrapI8 (n : ℤ)

/-- Rust `as usize` on an `i8`: sign-extend to 64 bits and reinterpret. -/
def usizeOfI8 (z : ℤ) : ℕ :=
  (z % 2 ^ 64).toNat

/-- The grid-index update of the batch caster's DDA loop
(GR/src/raycasting.rs lines 80 and 84): `map_x = (map_x as i8 + step_x) as
usize`.  The `i8` addition is modelled with wrapping semantics (Rust release
mode; in debug mode the overflowing cases panic instead). -/
def grIndexUpdate (n : ℕ) (s : ℤ) : ℕ :=
  usizeOfI8 (wrapI8 (i8OfUsize n + s))

/-- Per-axis delta distance of `RayCasting::lines` (GR/src/raycasting.rs
lines 39-49): the finite sentinel `1e30` for a zero direction component,
`|1 / dir|` otherwise. -/
noncomputable def grDelta (d : ℝ) : ℝ :=
  if d = 0 then 1e30 else |1 / d|

/-- Per-axis integer step of `RayCasting::lines` (GR/src/raycasting.rs lines
58-73). -/
noncomputable def grStep (d : ℝ) : ℤ :=
  if d < 0 then -1 else 1

/-- Per-axis initial side distance of `RayCasting::lines`
(GR/src/raycasting.rs lines 58-73). -/
noncomputable def grSideInit (pos : ℝ) (mapI : ℕ) (d : ℝ) : ℝ :=
  if d < 0 then (pos - (mapI : ℝ)) * grDelta d
  else ((mapI : ℝ) + 1 - pos) * grDelta d

/-- The `while hit == 0` DDA loop of `RayCasting::lines`
(GR/src/raycasting.rs lines 75-91), made total with an explicit fuel bound.
Side distances are plain reals (the zero-direction sentinel is the finite
`1e30`); grid indices are `usize` values updated through the `i8` cast. -/
noncomputable def grDdaLoop (world : List (List ℕ)) (deltaX deltaY : ℝ) (stepX stepY : ℤ) :
    ℕ → ℕ → ℕ → ℝ → ℝ → Option (ℕ × ℕ × ℝ × ℝ × Bool)
  | 0, _, _, _, _ => none
  | fuel + 1, mapX, mapY, sideX, sideY =>
    if sideX < sideY then
      if 0 < (world.getD mapY []).getD (grIndexUpdate mapX stepX) 0 then
        some (grIndexUpdate mapX stepX, mapY, sideX + deltaX, sideY, false)
      else grDdaLoop world deltaX deltaY stepX stepY fuel (grIndexUpdate mapX stepX) mapY
        (sideX + deltaX) sideY
    else
      if 0 < (world.getD (grIndexUpdate mapY stepY) []).getD mapX 0 then
        some (mapX, grIndexUpdate mapY stepY, sideX, sideY + deltaY, true)
      else grDdaLoop world deltaX deltaY stepX stepY fuel mapX (grIndexUpdate mapY stepY)
        sideX (sideY + deltaY)

/-- Per-column setup of `RayCasting::lines` (GR/src/raycasting.rs lines
31-73) followed by its DDA loop: ray direction `dir + plane * (2x/w - 1)`,
truncated start indices, finite sentinel `1e30` for a zero direction
component, and per-axis step signs and initial side distances. -/
noncomputable def grCastColumn (rc : RayCasting) (w x fuel : ℕ) :
    Option (ℕ × ℕ × ℝ × ℝ × Bool) :=
  let c : ℝ := 2 * (x : ℝ) / (w : ℝ) - 1
  let rdX := rc.dir.1 + rc.plane.1 * c
  let rdY := rc.dir.2 + rc.plane.2 * c
  grDdaLoop rc.world (grDelta rdX) (grDelta rdY) (grStep rdX) (grStep rdY) fuel
    (floatToUsize rc.pos.1) (floatToUsize rc.pos.2)
    (grSideInit rc.pos.1 (floatToUsize rc.pos.1) rdX)
    (grSideInit rc.pos.2 (floatToUsize rc.pos.2) rdY)

/-- Screen projection of one column of `RayCasting::lines`
(GR/src/raycasting.rs lines 100-118): `line_height = h / perp_wall_dist`
(uncapped), `draw_start = -line_height/2 + h/2` clamped below at 0,
`draw_end = line_height/2 + h/2` clamped above at `h - 1`, both then cast
`as u16`. -/
noncomputable def grProject (h : ℕ) (perp : ℝ) : ℕ × ℕ :=
  let lineHeight := (h : ℝ) / perp
  let ds0 := -lineHeight / 2 + (h : ℝ) / 2
  let ds := if ds0 < 0 then 0 else ds0
  let de0 := lineHeight / 2 + (h : ℝ) / 2
  let de := if (h : ℝ) ≤ de0 then (h : ℝ) - 1 else de0
  (u16OfFloat ds, u16OfFloat de)

/-- The perpendicular distance of the batch caster
(GR/src/raycasting.rs lines 93-98): `side_dist_axis - delta_dist_axis` for the
axis last stepped. -/
def grPerp (deltaX deltaY : ℝ) (hit : ℕ × ℕ × ℝ × ℝ × Bool) : ℝ :=
  if hit.2.2.2.2 = true then hit.2.2.2.1 - deltaY else hit.2.2.1 - deltaX

/-- The movement block of `RayCasting::transform_cam` (GR/src/raycasting.rs
lines 136-146): when `move_factor` is non-zero, commit the x translation if
the map cell at `(new_x, y)` is free, then commit the y translation if the
cell at `(x, new_y)` is free, with `x` the possibly already-updated
coordinate. -/
noncomputable def RayCasting.translate_cam (rc : RayCasting) (mf : ℝ) : RayCasting :=
  if mf ≠ 0 then
    let px1 := if rc.cell (floatToUsize (rc.pos.1 + rc.dir.1 * mf)) (floatToUsize rc.pos.2) = 0
               then rc.pos.1 + rc.dir.1 * mf else rc.pos.1
    let py1 := if rc.cell (floatToUsize px1) (floatToUsize (rc.pos.2 + rc.dir.2 * mf)) = 0
               then rc.pos.2 + rc.dir.2 * mf else rc.pos.2
    (⟨rc.world, (px1, py1), rc.dir, rc.plane⟩ : RayCasting)
  else rc

/-- The rotation block of `RayCasting::transform_cam` (GR/src/raycasting.rs
lines 149-162): when `rotation_factor` is non-zero, rotate `dir` and `plane`
by the standard 2D rotation. -/
noncomputable def RayCasting.rotate_cam (rc : RayCasting) (rot : ℝ) : RayCasting :=
  if rot ≠ 0 then
    ⟨rc.world, rc.pos,
     (rc.dir.1 * Real.cos rot - rc.dir.2 * Real.sin rot,
      rc.dir.1 * Real.sin rot + rc.dir.2 * Real.cos rot),
     (rc.plane.1 * Real.cos rot - rc.plane.2 * Real.sin rot,
      rc.plane.1 * Real.sin rot + rc.plane.2 * Real.cos rot)⟩
  else rc

/-- `RayCasting::transform_cam` (GR/src/raycasting.rs lines 128-163): the
movement block followed by the rotation block. -/
noncomputable def RayCasting.transform_cam (rc : RayCasting) (mf rot : ℝ) : RayCasting :=
  (rc.translate_cam mf).rotate_cam rot

/-- The 16×16 test grid of the end-to-end property: border cells hold wall
code 1, the interior is empty. -/
def map16 : Map :=
  ⟨(List.range 16).map (fun r =>
      (List.range 16).map (fun c =>
        if r = 0 ∨ r = 15 ∨ c = 0 ∨ c = 15 then 1 else 0)),
   16, 16⟩

/-- Camera for the end-to-end property: position (8.0, 8.0), facing angle 0. -/
noncomputable def p16 : Player :=
  Player.new 8 8 0

/-- A minimal 3×3 bordered grid with a single free centre cell. -/
def map3 : Map :=
  ⟨[[1, 1, 1], [1, 0, 1], [1, 1, 1]], 3, 3⟩

/-- A player in the centre of `map3` facing angle π (towards the west wall). -/
noncomputable def pSlide : Player :=
  Player.new (3 / 2) (3 / 2) Real.pi

/-- A player in the centre of `map3` facing angle 0. -/
noncomputable def pRound : Player :=
  Player.new (3 / 2) (3 / 2) 0

/-- Batch-caster state whose single screen column (w = 1, x = 0) produces the
ray direction `dir - plane = (10⁻³⁸, 0)` with an exactly zero y component. -/
noncomputable def rc5 : RayCasting :=
  ⟨[[1, 1, 1], [1, 0, 1], [1, 1, 1]], (3 / 2, 3 / 2), (1 / 10 ^ 38, 1), (0, 1)⟩

/-- A batch-caster state sitting in the free centre cell of a 3×3 bordered
world. -/
noncomputable def rcHome : RayCasting :=
  ⟨[[1, 1, 1], [1, 0, 1], [1, 1, 1]], (3 / 2, 3 / 2), (1, 0), (0, 1 / 2)⟩

theorem oLt_none_left (y : Option ℝ) : oLt none y = false := by
  cases y <;> rfl

theorem oLt_some_none (a : ℝ) : oLt (some a) none = true := rfl

theorem oLt_some_some (a b : ℝ) : oLt (some a) (some b) = decide (a < b) := rfl

theorem omul_none (r : ℝ) : omul r none = none := rfl

theorem omul_some (r d : ℝ) : omul r (some d) = some (r * d) := rfl

theorem oAdd_some_some (a b : ℝ) : oAdd (some a) (some b) = some (a + b) := rfl

/-- On integer-cast coordinates, `is_wall` is the wall test of the cell code
at those indices. -/
theorem is_wall_intCast (m : Map) (i j : ℤ) :
    m.is_wall (i : ℝ) (j : ℝ) = decide (m.code i j ≠ 0) := by
  simp [Map.is_wall]

theorem is_wall_intCast_false (m : Map) (i j : ℤ) :
    m.is_wall (i : ℝ) (j : ℝ) = false ↔ m.code i j = 0 := by
  simp [Map.is_wall]

theorem rayDelta_eq_none (d : ℝ) : rayDelta d = none ↔ d = 0 := by
  unfold rayDelta
  by_cases h : d = 0 <;> simp [h]

theorem rayDelta_eq_some (d v : ℝ) (h : rayDelta d = some v) : d ≠ 0 ∧ v = |1 / d| := by
  unfold rayDelta at h
  by_cases hd : d = 0 <;> simp [hd] at h
  exact ⟨hd, by rw [h.symm, one_div]⟩

theorem rayDelta_of_ne (d : ℝ) (h : d ≠ 0) : rayDelta d = some ((rayStep d : ℝ) / d) := by
  unfold rayDelta rayStep
  rcases lt_or_gt_of_ne h with hlt | hgt
  · rw [if_pos h, if_pos hlt]
    congr 1
    rw [abs_of_neg (one_div_neg.mpr hlt)]
    push_cast
    ring
  · rw [if_pos h, if_neg (not_lt.mpr hgt.le)]
    congr 1
    rw [abs_of_pos (one_div_pos.mpr hgt)]
    push_cast
    ring

theorem rayStep_cases (d : ℝ) : rayStep d = 1 ∨ rayStep d = -1 := by
  unfold rayStep
  by_cases h : d < 0 <;> simp [h]

theorem rayStep_of_neg (d : ℝ) (h : d < 0) : rayStep d = -1 := by
  unfold rayStep
  rw [if_pos h]

theorem rayStep_of_pos (d : ℝ) (h : 0 < d) : rayStep d = 1 := by
  unfold rayStep
  rw [if_neg (not_lt.mpr h.le)]

theorem raySideInit_zero (pos : ℝ) (mapI : ℤ) : raySideInit pos mapI 0 = none := by
  unfold raySideInit
  rw [(rayDelta_eq_none 0).mpr rfl]
  by_cases h : (0 : ℝ) < 0 <;> simp [h, omul]

theorem raySideInit_of_ne (pos : ℝ) (mapI : ℤ) (d : ℝ) (h : d ≠ 0) :
    raySideInit pos mapI d =
      some (((mapI : ℝ) + (1 + (rayStep d : ℝ)) / 2 - pos) / d) := by
  unfold raySideInit
  rcases lt_or_gt_of_ne h with hlt | hgt
  · rw [if_pos hlt, rayDelta_of_ne d h, omul_some]
    congr 1
    rw [show ((rayStep d : ℝ)) = -1 by rw [rayStep_of_neg d hlt]; norm_num]
    field_simp
  · rw [if_neg (not_lt.mpr hgt.le), rayDelta_of_ne d h, omul_some]
    congr 1
    rw [show ((rayStep d : ℝ)) = 1 by rw [rayStep_of_pos d hgt]; norm_num]
    field_simp

/-- Claim C6: for every player state, map and distance `d`, `move_backward d`
produces exactly the same state as `move_forward (-d)`: backward movement is
forward movement with negated distance. -/
theorem move_backward_eq_forward_neg (p : Player) (d : ℝ) (m : Map) :
    p.move_backward d m = p.move_forward (-d) m := by
  simp only [Player.move_backward, Player.move_forward]
  have h1 : p.x + Real.cos p.direction * -d = p.x - Real.cos p.direction * d := by ring
  have h2 : p.y + Real.sin p.direction * -d = p.y - Real.sin p.direction * d := by ring
  rw [h1, h2]

/-- Claim C3: every movement operation (`move_forward`, `move_backward`,
`transform_cam`'s translation) preserves the invariant that the player/camera
position lies in a non-wall cell, for every distance and map. -/
theorem movement_preserves_nonwall :
    (∀ (p : Player) (d : ℝ) (m : Map), m.is_wall p.x p.y = false →
      m.is_wall (p.move_forward d m).x (p.move_forward d m).y = false) ∧
    (∀ (p : Player) (d : ℝ) (m : Map), m.is_wall p.x p.y = false →
      m.is_wall (p.move_backward d m).x (p.move_backward d m).y = false) ∧
    (∀ (rc : RayCasting) (mf rot : ℝ),
      rc.cell (floatToUsize rc.pos.1) (floatToUsize rc.pos.2) = 0 →
      (rc.transform_cam mf rot).cell
        (floatToUsize (rc.transform_cam mf rot).pos.1)
        (floatToUsize (rc.transform_cam mf rot).pos.2) = 0) := by
  refine ⟨?_, ?_, ?_⟩
  · intro p d m h
    simp only [Player.move_forward]
    cases hx : m.is_wall (p.x + Real.cos p.direction * d) p.y with
    | false =>
      cases hy : m.is_wall (p.x + Real.cos p.direction * d)
          (p.y + Real.sin p.direction * d) with
      | false => simp [hx, hy]
      | true => simp [hx, hy]
    | true =>
      cases hy : m.is_wall p.x (p.y + Real.sin p.direction * d) with
      | false => simp [hx, hy]
      | true => simp [hx, hy, h]
  · intro p d m h
    simp only [Player.move_backward]
    cases hx : m.is_wall (p.x - Real.cos p.direction * d) p.y with
    | false =>
      cases hy : m.is_wall (p.x - Real.cos p.direction * d)
          (p.y - Real.sin p.direction * d) with
      | false => simp [hx, hy]
      | true => simp [hx, hy]
    | true =>
      cases hy : m.is_wall p.x (p.y - Real.sin p.direction * d) with
      | false => simp [hx, hy]
      | true => simp [hx, hy, h]
  · intro rc mf rot h
    have hρw : ∀ (rc1 : RayCasting), (rc1.rotate_cam rot).world = rc1.world := by
      intro rc1
      unfold RayCasting.rotate_cam
      split_ifs <;> rfl
    have hρp : ∀ (rc1 : RayCasting), (rc1.rotate_cam rot).pos = rc1.pos := by
      intro rc1
      unfold RayCasting.rotate_cam
      split_ifs <;> rfl
    have hcell : ∀ (rc1 : RayCasting) (a b : ℕ),
        (rc1.rotate_cam rot).cell a b = rc1.cell a b := by
      intro rc1 a b
      simp [RayCasting.cell, hρw]
    rw [RayCasting.transform_cam]
    rw [hcell, hρp]
    unfold RayCasting.translate_cam
    by_cases hmf : mf = 0
    · simpa [hmf] using h
    · rw [if_pos hmf]
      by_cases hcx : rc.cell (floatToUsize (rc.pos.1 + rc.dir.1 * mf))
          (floatToUsize rc.pos.2) = 0
      · by_cases hcy : rc.cell (floatToUsize (rc.pos.1 + rc.dir.1 * mf))
            (floatToUsize (rc.pos.2 + rc.dir.2 * mf)) = 0
        · simp only [RayCasting.cell] at hcx hcy h ⊢
          simp only [hcx, hcy, h, eq_self_iff_true, if_true, ite_true, ite_false, if_false,
            iff_false, not_false_iff]
        · simp only [RayCasting.cell] at hcx hcy h ⊢
          simp only [hcx, hcy, h, eq_self_iff_true, if_true, ite_true, ite_false, if_false,
            iff_false, not_false_iff]
      · by_cases hcy : rc.cell (floatToUsize rc.pos.1)
            (floatToUsize (rc.pos.2 + rc.dir.2 * mf)) = 0
        · simp only [RayCasting.cell] at hcx hcy h ⊢
          simp only [hcx, hcy, h, eq_self_iff_true, if_true, ite_true, ite_false, if_false,
            iff_false, not_false_iff]
        · simp only [RayCasting.cell] at hcx hcy h ⊢
          simp only [hcx, hcy, h, eq_self_iff_true, if_true, ite_true, ite_false, if_false,
            iff_false, not_false_iff]

/-- Witness for C3: concrete applications of all three movement operations
from the free centre cell of a 3×3 bordered map. -/
theorem movement_preserves_nonwall_witness :
    map3.is_wall (pRound.move_forward (1/4) map3).x (pRound.move_forward (1/4) map3).y
      = false ∧
    map3.is_wall (pRound.move_backward (1/4) map3).x (pRound.move_backward (1/4) map3).y
      = false ∧
    (rcHome.transform_cam (1/4) 0).cell
      (floatToUsize (rcHome.transform_cam (1/4) 0).pos.1)
      (floatToUsize (rcHome.transform_cam (1/4) 0).pos.2) = 0 :=
  ⟨movement_preserves_nonwall.1 pRound (1/4) map3
    (by simp only [pRound, Player.new, Map.is_wall]
        norm_num [Map.code, map3, List.getD]),
   movement_preserves_nonwall.2.1 pRound (1/4) map3
    (by simp only [pRound, Player.new, Map.is_wall]
        norm_num [Map.code, map3, List.getD]),
   movement_preserves_nonwall.2.2 rcHome (1/4) 0
    (by simp only [rcHome, RayCasting.cell, floatToUsize]
        norm_num [List.getD])⟩

/-- Claim C4: `move_forward` computes both axis candidates from the pre-move
state; the x axis commits exactly when the map reports `(new_x, y)` non-wall,
and the y axis commits exactly when the map reports `(x, new_y)` non-wall
(with `x` the already-committed x coordinate, as in the source); consequently
a diagonal approach into a wall rejects the blocked axis component and still
applies the open axis component (wall sliding). -/
theorem move_forward_per_axis (m : Map) (p : Player) (d : ℝ) :
    ((p.move_forward d m).x =
      if m.is_wall (p.x + Real.cos p.direction * d) p.y then p.x
      else p.x + Real.cos p.direction * d) ∧
    ((p.move_forward d m).y =
      if m.is_wall (p.move_forward d m).x (p.y + Real.sin p.direction * d) then p.y
      else p.y + Real.sin p.direction * d) ∧
    (m.is_wall (p.x + Real.cos p.direction * d) p.y = true →
      m.is_wall p.x (p.y + Real.sin p.direction * d) = false →
      (p.move_forward d m).x = p.x ∧
      (p.move_forward d m).y = p.y + Real.sin p.direction * d) := by
  refine ⟨rfl, rfl, ?_⟩
  intro hx hy
  simp [Player.move_forward, hx, hy]

/-- Witness for C4: on `map3`, facing π while standing at (1.5, 1.5), the x
candidate runs into the west border wall and is rejected while the (trivially
open) y candidate is still applied. -/
theorem move_forward_per_axis_witness :
    (pSlide.move_forward 1 map3).x = pSlide.x ∧
    (pSlide.move_forward 1 map3).y = pSlide.y + Real.sin pSlide.direction * 1 :=
  (move_forward_per_axis map3 pSlide 1).2.2
    (by simp only [pSlide, Player.new, Map.is_wall, Real.cos_pi]
        norm_num [Map.code, map3, List.getD])
    (by simp only [pSlide, Player.new, Map.is_wall, Real.sin_pi]
        norm_num [Map.code, map3, List.getD])

/-- Claim C7: when none of the four collision checks fires, moving forward by
`d` and then backward by `d` restores the position exactly (the floating-point
tolerance of the claim is exact equality in the real-number model). -/
theorem forward_backward_roundtrip (p : Player) (d : ℝ) (m : Map)
    (h1 : m.is_wall (p.x + Real.cos p.direction * d) p.y = false)
    (h2 : m.is_wall (p.x + Real.cos p.direction * d)
      (p.y + Real.sin p.direction * d) = false)
    (h3 : m.is_wall p.x (p.y + Real.sin p.direction * d) = false)
    (h4 : m.is_wall p.x p.y = false) :
    ((p.move_forward d m).move_backward d m).x = p.x ∧
    ((p.move_forward d m).move_backward d m).y = p.y := by
  have hf : p.move_forward d m =
      ⟨p.x + Real.cos p.direction * d, p.y + Real.sin p.direction * d,
       p.direction, p.fov⟩ := by
    simp [Player.move_forward, h1, h2]
  rw [hf]
  simp only [Player.move_backward]
  have e1 : p.x + Real.cos p.direction * d - Real.cos p.direction * d = p.x := by ring
  have e2 : p.y + Real.sin p.direction * d - Real.sin p.direction * d = p.y := by ring
  rw [e1, e2]
  simp [h3, h4]

/-- Witness for C7: a quarter-unit move from the centre of `map3` facing
angle 0 and back restores the position. -/
theorem forward_backward_roundtrip_witness :
    ((pRound.move_forward (1/4) map3).move_backward (1/4) map3).x = pRound.x ∧
    ((pRound.move_forward (1/4) map3).move_backward (1/4) map3).y = pRound.y :=
  forward_backward_roundtrip pRound (1/4) map3
    (by simp only [pRound, Player.new, Map.is_wall, Real.cos_zero, Real.sin_zero]
        norm_num [Map.code, map3, List.getD])
    (by simp only [pRound, Player.new, Map.is_wall, Real.cos_zero, Real.sin_zero]
        norm_num [Map.code, map3, List.getD])
    (by simp only [pRound, Player.new, Map.is_wall, Real.cos_zero, Real.sin_zero]
        norm_num [Map.code, map3, List.getD])
    (by simp only [pRound, Player.new, Map.is_wall]
        norm_num [Map.code, map3, List.getD])

/-- Counterexample for C10: the claim's boundaries are off by one for the
negative step.  At current index 127 (> 126) the i8-cast update still equals
`map_x + step_x` for `step_x = -1`, and at current index 128 (≥ 128, where the
claim says the update must differ from `map_x + step_x`) the wrapped update is
127 = 128 + (-1). -/
theorem grIndexUpdate_boundary_counterexample :
    grIndexUpdate 128 (-1) = 127 ∧ (128 : ℤ) + (-1) = 127 ∧
    grIndexUpdate 127 (-1) = 126 ∧ (127 : ℤ) + (-1) = 126 := by
  refine ⟨?_, by norm_num, ?_, by norm_num⟩ <;> decide

/-- Claim C10 (amended): the batch caster's index update is the 64-bit value
of sign-extending the wrapped low byte of `map_x + step_x`; for
`step_x ∈ {-1, +1}` it equals `map_x + step_x` exactly when `map_x + step_x`
lies in `[0, 127]` or in the top 128 `usize` values `[2^64 - 128, 2^64 - 1]`
(so in particular it always does for `map_x ≤ 126`, and never does for
`129 ≤ map_x ≤ 2^64 - 130`). -/
theorem grIndexUpdate_characterisation (n : ℕ) (s : ℤ) (hn : n < 2 ^ 64)
    (hs : s = 1 ∨ s = -1) :
    (grIndexUpdate n s : ℤ) = wrapI8 ((n : ℤ) + s) % 2 ^ 64 ∧
    ((grIndexUpdate n s : ℤ) = (n : ℤ) + s ↔
      (0 ≤ (n : ℤ) + s ∧ (n : ℤ) + s ≤ 127) ∨
      ((2 : ℤ) ^ 64 - 128 ≤ (n : ℤ) + s ∧ (n : ℤ) + s ≤ 2 ^ 64 - 1)) := by
  have hnn : ∀ z : ℤ, ((usizeOfI8 z : ℕ) : ℤ) = z % 2 ^ 64 := by
    intro z
    unfold usizeOfI8
    rw [Int.toNat_of_nonneg (Int.emod_nonneg z (by norm_num))]
  unfold grIndexUpdate
  rw [hnn]
  unfold wrapI8 i8OfUsize wrapI8
  rcases hs with hs | hs <;> subst hs <;> constructor <;> omega

/-- Witness for C10 (amended) at index 5 with step +1. -/
theorem grIndexUpdate_characterisation_witness :
    (grIndexUpdate 5 1 : ℤ) = wrapI8 (((5 : ℕ) : ℤ) + 1) % 2 ^ 64 ∧
    ((grIndexUpdate 5 1 : ℤ) = ((5 : ℕ) : ℤ) + 1 ↔
      (0 ≤ ((5 : ℕ) : ℤ) + 1 ∧ ((5 : ℕ) : ℤ) + 1 ≤ 127) ∨
      ((2 : ℤ) ^ 64 - 128 ≤ ((5 : ℕ) : ℤ) + 1 ∧ ((5 : ℕ) : ℤ) + 1 ≤ 2 ^ 64 - 1)) :=
  grIndexUpdate_characterisation 5 1 (by norm_num) (Or.inl rfl)

/-- If the x side distance starts at the infinite sentinel, the DDA loop never
steps the x axis: any hit has `side = true`, an unchanged x index, and a still
infinite x side distance. -/
theorem ddaLoop_sideX_none (m : Map) (dX dY : Option ℝ) (sX sY : ℤ) :
    ∀ (fuel : ℕ) (mapX mapY : ℤ) (sdY : Option ℝ) (res : DDAHit),
      ddaLoop m dX dY sX sY fuel mapX mapY none sdY = some res →
      res.side = true ∧ res.mapX = mapX ∧ res.sideX = none := by
  intro fuel
  induction fuel with
  | zero =>
    intro mapX mapY sdY res h
    simp [ddaLoop] at h
  | succ n ih =>
    intro mapX mapY sdY res h
    rw [ddaLoop, oLt_none_left] at h
    simp only [Bool.false_eq_true, if_false, ite_false] at h
    by_cases hw : m.is_wall (mapX : ℝ) ((mapY + sY : ℤ) : ℝ) = true
    · rw [if_pos hw] at h
      injection h with h
      subst h
      exact ⟨rfl, rfl, rfl⟩
    · rw [if_neg hw] at h
      exact ih mapX (mapY + sY) (oAdd sdY dY) res h

/-- If the y side distance starts at the infinite sentinel while the x side
distance is finite, the DDA loop never steps the y axis: any hit has
`side = false`, an unchanged y index, and a still infinite y side distance. -/
theorem ddaLoop_sideY_none (m : Map) (dY : Option ℝ) (sX sY : ℤ) (dx : ℝ) :
    ∀ (fuel : ℕ) (mapX mapY : ℤ) (sx : ℝ) (res : DDAHit),
      ddaLoop m (some dx) dY sX sY fuel mapX mapY (some sx) none = some res →
      res.side = false ∧ res.mapY = mapY ∧ res.sideY = none := by
  intro fuel
  induction fuel with
  | zero =>
    intro mapX mapY sx res h
    simp [ddaLoop] at h
  | succ n ih =>
    intro mapX mapY sx res h
    rw [ddaLoop, oLt_some_none] at h
    simp only [if_true, ite_true] at h
    by_cases hw : m.is_wall ((mapX + sX : ℤ) : ℝ) (mapY : ℝ) = true
    · rw [if_pos hw] at h
      injection h with h
      subst h
      exact ⟨rfl, rfl, rfl⟩
    · rw [if_neg hw] at h
      simp only [oAdd] at h
      exact ih (mapX + sX) mapY (sx + dx) res h

/-- Termination of the DDA loop on a border-walled grid: starting from an
interior cell, the loop hits a wall within `gapX + gapY + 1` steps, where each
gap bounds the number of steps that axis can take before reaching the border.
The bound holds for arbitrary side distances and deltas: each iteration moves
one index one cell towards its border wall, whichever branch is taken. -/
theorem ddaLoop_term (m : Map) (dX dY : Option ℝ) (sX sY : ℤ)
    (hb : m.Bordered) (hsX : sX = 1 ∨ sX = -1) (hsY : sY = 1 ∨ sY = -1) :
    ∀ (fuel : ℕ) (mapX mapY : ℤ) (sdX sdY : Option ℝ) (gx gy : ℕ),
      1 ≤ mapX → mapX ≤ (m.width : ℤ) - 2 →
      1 ≤ mapY → mapY ≤ (m.height : ℤ) - 2 →
      sX * ((m.width : ℤ) - 1 - mapX) ≤ gx →
      sY * ((m.height : ℤ) - 1 - mapY) ≤ gy →
      mapX * (-sX) ≤ gx →
      mapY * (-sY) ≤ gy →
      gx + gy + 1 ≤ fuel →
      (ddaLoop m dX dY sX sY fuel mapX mapY sdX sdY).isSome := by
  intro fuel
  induction fuel with
  | zero =>
    intro mapX mapY sdX sdY gx gy h1 h2 h3 h4 hgx1 hgy1 hgx2 hgy2 hf
    omega
  | succ n ih =>
    intro mapX mapY sdX sdY gx gy h1 h2 h3 h4 hgx1 hgy1 hgx2 hgy2 hf
    rw [ddaLoop]
    by_cases hlt : oLt sdX sdY = true
    · rw [if_pos hlt]
      by_cases hw : m.is_wall ((mapX + sX : ℤ) : ℝ) (mapY : ℝ) = true
      · rw [if_pos hw]
        exact Option.isSome_some
      · rw [if_neg hw]
        rw [Bool.not_eq_true, is_wall_intCast_false] at hw
        have hxlb : (0 : ℤ) ≤ mapX + sX := by rcases hsX with rfl | rfl <;> omega
        have hxub : mapX + sX < (m.width : ℤ) := by rcases hsX with rfl | rfl <;> omega
        have hne0 : mapX + sX ≠ 0 := fun h0 =>
          hb (mapX + sX) mapY hxlb hxub (by omega) (by omega) (Or.inl h0) hw
        have hneW : mapX + sX ≠ (m.width : ℤ) - 1 := fun h0 =>
          hb (mapX + sX) mapY hxlb hxub (by omega) (by omega) (Or.inr (Or.inl h0)) hw
        rcases hsX with rfl | rfl <;> rcases hsY with rfl | rfl <;>
          exact ih (mapX + _) mapY (oAdd sdX dX) sdY (gx - 1) gy
            (by omega) (by omega) (by omega) (by omega)
            (by omega) (by omega) (by omega) (by omega) (by omega)
    · rw [if_neg hlt]
      by_cases hw : m.is_wall (mapX : ℝ) ((mapY + sY : ℤ) : ℝ) = true
      · rw [if_pos hw]
        exact Option.isSome_some
      · rw [if_neg hw]
        rw [Bool.not_eq_true, is_wall_intCast_false] at hw
        have hylb : (0 : ℤ) ≤ mapY + sY := by rcases hsY with rfl | rfl <;> omega
        have hyub : mapY + sY < (m.height : ℤ) := by rcases hsY with rfl | rfl <;> omega
        have hne0 : mapY + sY ≠ 0 := fun h0 =>
          hb mapX (mapY + sY) (by omega) (by omega) hylb hyub (Or.inr (Or.inr (Or.inl h0))) hw
        have hneH : mapY + sY ≠ (m.height : ℤ) - 1 := fun h0 =>
          hb mapX (mapY + sY) (by omega) (by omega) hylb hyub
            (Or.inr (Or.inr (Or.inr h0))) hw
        rcases hsX with rfl | rfl <;> rcases hsY with rfl | rfl <;>
          exact ih mapX (mapY + _) sdX (oAdd sdY dY) gx (gy - 1)
            (by omega) (by omega) (by omega) (by omega)
            (by omega) (by omega) (by omega) (by omega) (by omega)

/-- Index monotonicity of the DDA loop: each axis's hit index equals its start
index plus a non-negative multiple of that axis's step, and the axis recorded
in the side flag was stepped at least once. -/
theorem ddaLoop_progress (m : Map) (dX dY : Option ℝ) (sX sY : ℤ) :
    ∀ (fuel : ℕ) (mapX mapY : ℤ) (sdX sdY : Option ℝ) (res : DDAHit),
      ddaLoop m dX dY sX sY fuel mapX mapY sdX sdY = some res →
      (∃ k : ℤ, 0 ≤ k ∧ res.mapX = mapX + k * sX ∧ (res.side = false → 1 ≤ k)) ∧
      (∃ k : ℤ, 0 ≤ k ∧ res.mapY = mapY + k * sY ∧ (res.side = true → 1 ≤ k)) := by
  intro fuel
  induction fuel with
  | zero =>
    intro mapX mapY sdX sdY res h
    simp [ddaLoop] at h
  | succ n ih =>
    intro mapX mapY sdX sdY res h
    rw [ddaLoop] at h
    by_cases hlt : oLt sdX sdY = true
    · rw [if_pos hlt] at h
      by_cases hw : m.is_wall ((mapX + sX : ℤ) : ℝ) (mapY : ℝ) = true
      · rw [if_pos hw] at h
        injection h with h
        subst h
        refine ⟨⟨1, by omega, by ring, fun _ => le_refl 1⟩,
                ⟨0, le_refl 0, by ring, fun hc => by simp at hc⟩⟩
      · rw [if_neg hw] at h
        obtain ⟨⟨k1, hk1, he1, hi1⟩, ⟨k2, hk2, he2, hi2⟩⟩ :=
          ih (mapX + sX) mapY (oAdd sdX dX) sdY res h
        exact ⟨⟨k1 + 1, by omega, by rw [he1]; ring, fun _ => by omega⟩,
               ⟨k2, hk2, he2, hi2⟩⟩
    · rw [if_neg hlt] at h
      by_cases hw : m.is_wall (mapX : ℝ) ((mapY + sY : ℤ) : ℝ) = true
      · rw [if_pos hw] at h
        injection h with h
        subst h
        refine ⟨⟨0, le_refl 0, by ring, fun hc => by simp at hc⟩,
                ⟨1, by omega, by ring, fun _ => le_refl 1⟩⟩
      · rw [if_neg hw] at h
        obtain ⟨⟨k1, hk1, he1, hi1⟩, ⟨k2, hk2, he2, hi2⟩⟩ :=
          ih mapX (mapY + sY) sdX (oAdd sdY dY) res h
        exact ⟨⟨k1, hk1, he1, hi1⟩,
               ⟨k2 + 1, by omega, by rw [he2]; ring, fun _ => by omega⟩⟩

theorem raySideInit_none_iff (pos : ℝ) (mapI : ℤ) (d : ℝ) :
    raySideInit pos mapI d = none ↔ rayDelta d = none := by
  constructor
  · intro h
    by_contra hne
    have hd : d ≠ 0 := fun h0 => hne ((rayDelta_eq_none d).mpr h0)
    rw [raySideInit_of_ne pos mapI d hd] at h
    simp at h
  · intro h
    have hd := (rayDelta_eq_none d).mp h
    rw [hd]
    exact raySideInit_zero pos mapI

/-- Side-distance invariant of the DDA loop: if each finite side distance
starts at `(map + (1 + step)/2 - pos) / dir` (the value the caster's
initialisation produces) and each finite delta is `step / dir`, then at the
hit the accumulated form `side_dist - delta_dist` of the axis last stepped
equals the closed-form re-derivation from the hit's map index. -/
theorem ddaLoop_inv (m : Map) (dirX dirY px py : ℝ) (dX dY : Option ℝ) (sX sY : ℤ)
    (hdX : ∀ v, dX = some v → dirX ≠ 0 ∧ v = (sX : ℝ) / dirX)
    (hdY : ∀ v, dY = some v → dirY ≠ 0 ∧ v = (sY : ℝ) / dirY)
    (hnz : dX ≠ none ∨ dY ≠ none) :
    ∀ (fuel : ℕ) (mapX mapY : ℤ) (sdX sdY : Option ℝ) (res : DDAHit),
      (sdX = none ↔ dX = none) →
      (∀ v, sdX = some v → v = ((mapX : ℝ) + (1 + (sX : ℝ)) / 2 - px) / dirX) →
      (sdY = none ↔ dY = none) →
      (∀ v, sdY = some v → v = ((mapY : ℝ) + (1 + (sY : ℝ)) / 2 - py) / dirY) →
      ddaLoop m dX dY sX sY fuel mapX mapY sdX sdY = some res →
      (res.side = false → ∃ dx v, dX = some dx ∧ res.sideX = some v ∧
        v - dx = ((res.mapX : ℝ) - px + (1 - (sX : ℝ)) / 2) / dirX) ∧
      (res.side = true → ∃ dy v, dY = some dy ∧ res.sideY = some v ∧
        v - dy = ((res.mapY : ℝ) - py + (1 - (sY : ℝ)) / 2) / dirY) := by
  intro fuel
  induction fuel with
  | zero =>
    intro mapX mapY sdX sdY res hsx hvx hsy hvy h
    simp [ddaLoop] at h
  | succ n ih =>
    intro mapX mapY sdX sdY res hsx hvx hsy hvy h
    rw [ddaLoop] at h
    by_cases hlt : oLt sdX sdY = true
    · rw [if_pos hlt] at h
      cases sdX with
      | none =>
        rw [oLt_none_left] at hlt
        exact absurd hlt (by simp)
      | some v =>
        have hdxs : dX ≠ none := fun h0 => by
          have := hsx.mpr h0
          simp at this
        cases hdxc : dX with
        | none => exact absurd hdxc hdxs
        | some dxv =>
          subst hdxc
          obtain ⟨hdir, hval⟩ := hdX dxv rfl
          have hv := hvx v rfl
          simp only [oAdd] at h
          by_cases hw : m.is_wall ((mapX + sX : ℤ) : ℝ) (mapY : ℝ) = true
          · rw [if_pos hw] at h
            injection h with h
            subst h
            refine ⟨fun _ => ⟨dxv, v + dxv, rfl, rfl, ?_⟩, fun hc => by simp at hc⟩
            subst hval
            subst hv
            push_cast
            field_simp
            ring
          · rw [if_neg hw] at h
            refine ih (mapX + sX) mapY (some (v + dxv)) sdY res (by simp) ?_ hsy hvy h
            intro w hw2
            injection hw2 with hw2
            subst hw2
            subst hval
            subst hv
            push_cast
            field_simp
            ring
    · rw [if_neg hlt] at h
      cases sdY with
      | none =>
        have hdyn : dY = none := hsy.mp rfl
        have hdxs : dX ≠ none := by
          rcases hnz with h' | h'
          · exact h'
          · exact absurd hdyn h'
        have hsdx : sdX ≠ none := fun h0 => hdxs (hsx.mp h0)
        cases sdX with
        | none => exact absurd rfl hsdx
        | some v =>
          rw [oLt_some_none] at hlt
          exact absurd rfl hlt
      | some v =>
        have hdys : dY ≠ none := fun h0 => by
          have := hsy.mpr h0
          simp at this
        cases hdyc : dY with
        | none => exact absurd hdyc hdys
        | some dyv =>
          subst hdyc
          obtain ⟨hdir, hval⟩ := hdY dyv rfl
          have hv := hvy v rfl
          simp only [oAdd] at h
          by_cases hw : m.is_wall (mapX : ℝ) ((mapY + sY : ℤ) : ℝ) = true
          · rw [if_pos hw] at h
            injection h with h
            subst h
            refine ⟨fun hc => by simp at hc, fun _ => ⟨dyv, v + dyv, rfl, rfl, ?_⟩⟩
            subst hval
            subst hv
            push_cast
            field_simp
            ring
          · rw [if_neg hw] at h
            refine ih mapX (mapY + sY) sdX (some (v + dyv)) res hsx hvx (by simp) ?_ h
            intro w hw2
            injection hw2 with hw2
            subst hw2
            subst hval
            subst hv
            push_cast
            field_simp
            ring

theorem rayDelta_val (d v : ℝ) (h : rayDelta d = some v) :
    d ≠ 0 ∧ v = (rayStep d : ℝ) / d := by
  have hne := (rayDelta_eq_some d v h).1
  rw [rayDelta_of_ne d hne] at h
  injection h with h
  exact ⟨hne, h.symm⟩

theorem raySideInit_val (pos : ℝ) (i : ℤ) (d v : ℝ)
    (h : raySideInit pos i d = some v) :
    v = ((i : ℝ) + (1 + (rayStep d : ℝ)) / 2 - pos) / d := by
  by_cases hd : d = 0
  · rw [hd, raySideInit_zero] at h
    simp at h
  · rw [raySideInit_of_ne pos i d hd] at h
    injection h with h
    exact h.symm

/-- Claim C1: for every camera position strictly inside a non-wall cell of a
grid fully enclosed by a wall border, and for every angular offset, the
single-ray caster's DDA loop (run with fuel `grid_width + grid_height`, the
spec's step bound) terminates with a hit and `cast_ray` returns a finite,
non-negative perpendicular distance. -/
theorem cast_ray_terminates_nonneg (m : Map) (p : Player) (off : ℝ)
    (hb : m.Bordered)
    (hx0 : 0 ≤ ⌊p.x⌋) (hxw : ⌊p.x⌋ < (m.width : ℤ))
    (hy0 : 0 ≤ ⌊p.y⌋) (hyh : ⌊p.y⌋ < (m.height : ℤ))
    (hfree : m.code ⌊p.x⌋ ⌊p.y⌋ = 0)
    (hsx : (⌊p.x⌋ : ℝ) < p.x) (hsy : (⌊p.y⌋ : ℝ) < p.y) :
    ∃ d s, cast_ray m p off = some (d, s) ∧ 0 ≤ d := by
  have hxi1 : 1 ≤ ⌊p.x⌋ := by
    by_contra hc
    exact hb ⌊p.x⌋ ⌊p.y⌋ hx0 hxw hy0 hyh (Or.inl (by omega)) hfree
  have hxi2 : ⌊p.x⌋ ≤ (m.width : ℤ) - 2 := by
    by_contra hc
    exact hb ⌊p.x⌋ ⌊p.y⌋ hx0 hxw hy0 hyh (Or.inr (Or.inl (by omega))) hfree
  have hyi1 : 1 ≤ ⌊p.y⌋ := by
    by_contra hc
    exact hb ⌊p.x⌋ ⌊p.y⌋ hx0 hxw hy0 hyh (Or.inr (Or.inr (Or.inl (by omega)))) hfree
  have hyi2 : ⌊p.y⌋ ≤ (m.height : ℤ) - 2 := by
    by_contra hc
    exact hb ⌊p.x⌋ ⌊p.y⌋ hx0 hxw hy0 hyh (Or.inr (Or.inr (Or.inr (by omega)))) hfree
  have hstepx := rayStep_cases (Real.cos (p.direction + off))
  have hstepy := rayStep_cases (Real.sin (p.direction + off))
  have hsome := ddaLoop_term m (rayDelta (Real.cos (p.direction + off)))
    (rayDelta (Real.sin (p.direction + off))) (rayStep (Real.cos (p.direction + off)))
    (rayStep (Real.sin (p.direction + off))) hb hstepx hstepy
    (m.width + m.height) ⌊p.x⌋ ⌊p.y⌋
    (raySideInit p.x ⌊p.x⌋ (Real.cos (p.direction + off)))
    (raySideInit p.y ⌊p.y⌋ (Real.sin (p.direction + off)))
    (m.width - 2) (m.height - 2)
    hxi1 hxi2 hyi1 hyi2
    (by rcases hstepx with h | h <;> rw [h] <;> omega)
    (by rcases hstepy with h | h <;> rw [h] <;> omega)
    (by rcases hstepx with h | h <;> rw [h] <;> omega)
    (by rcases hstepy with h | h <;> rw [h] <;> omega)
    (by omega)
  obtain ⟨res, hres⟩ := Option.isSome_iff_exists.mp hsome
  have hcast : castRayHit m p off = some res := by
    simp only [castRayHit]
    exact hres
  have hray : cast_ray m p off =
      some (if res.side = false then
              ((res.mapX : ℝ) - p.x +
                (1 - (rayStep (Real.cos (p.direction + off)) : ℝ)) / 2) /
                Real.cos (p.direction + off)
            else ((res.mapY : ℝ) - p.y +
                (1 - (rayStep (Real.sin (p.direction + off)) : ℝ)) / 2) /
                Real.sin (p.direction + off),
            res.side) := by
    simp only [cast_ray, hcast, Option.map_some']
  refine ⟨_, res.side, hray, ?_⟩
  obtain ⟨⟨kx, hkx0, hkxeq, hkx1⟩, ⟨ky, hky0, hkyeq, hky1⟩⟩ :=
    ddaLoop_progress m _ _ _ _ _ _ _ _ _ res hres
  by_cases hside : res.side = false
  · rw [if_pos hside]
    have hdx0 : Real.cos (p.direction + off) ≠ 0 := by
      intro h0
      have hn : raySideInit p.x ⌊p.x⌋ (Real.cos (p.direction + off)) = none :=
        (raySideInit_none_iff _ _ _).mpr ((rayDelta_eq_none _).mpr h0)
      rw [hn] at hres
      have := (ddaLoop_sideX_none m _ _ _ _ _ _ _ _ res hres).1
      rw [hside] at this
      exact absurd this (by simp)
    have hk1 : 1 ≤ kx := hkx1 hside
    rcases lt_or_gt_of_ne hdx0 with hneg | hpos
    · rw [rayStep_of_neg _ hneg] at hkxeq ⊢
      have hmx : (res.mapX : ℝ) ≤ (⌊p.x⌋ : ℝ) - 1 := by
        rw [hkxeq]
        push_cast
        have : (1 : ℝ) ≤ (kx : ℝ) := by exact_mod_cast hk1
        linarith
      have hfl : (⌊p.x⌋ : ℝ) ≤ p.x := Int.floor_le p.x
      apply div_nonneg_of_nonpos
      · push_cast
        linarith
      · exact hneg.le
    · rw [rayStep_of_pos _ hpos] at hkxeq ⊢
      have hmx : (⌊p.x⌋ : ℝ) + 1 ≤ (res.mapX : ℝ) := by
        rw [hkxeq]
        push_cast
        have : (1 : ℝ) ≤ (kx : ℝ) := by exact_mod_cast hk1
        linarith
      have hfl : p.x < (⌊p.x⌋ : ℝ) + 1 := Int.lt_floor_add_one p.x
      apply div_nonneg
      · push_cast
        linarith
      · exact hpos.le
  · rw [if_neg hside]
    have hside' : res.side = true := by
      revert hside
      cases res.side <;> simp
    have hdy0 : Real.sin (p.direction + off) ≠ 0 := by
      intro h0
      have hdx : Real.cos (p.direction + off) ≠ 0 := by
        intro h1
        have := Real.sin_sq_add_cos_sq (p.direction + off)
        rw [h0, h1] at this
        norm_num at this
      have hn : raySideInit p.y ⌊p.y⌋ (Real.sin (p.direction + off)) = none :=
        (raySideInit_none_iff _ _ _).mpr ((rayDelta_eq_none _).mpr h0)
      rw [hn, rayDelta_of_ne _ hdx, raySideInit_of_ne _ _ _ hdx] at hres
      have := (ddaLoop_sideY_none m _ _ _ _ _ _ _ _ res hres).1
      rw [hside'] at this
      exact absurd this (by simp)
    have hk1 : 1 ≤ ky := hky1 hside'
    rcases lt_or_gt_of_ne hdy0 with hneg | hpos
    · rw [rayStep_of_neg _ hneg] at hkyeq ⊢
      have hmy : (res.mapY : ℝ) ≤ (⌊p.y⌋ : ℝ) - 1 := by
        rw [hkyeq]
        push_cast
        have : (1 : ℝ) ≤ (ky : ℝ) := by exact_mod_cast hk1
        linarith
      have hfl : (⌊p.y⌋ : ℝ) ≤ p.y := Int.floor_le p.y
      apply div_nonneg_of_nonpos
      · push_cast
        linarith
      · exact hneg.le
    · rw [rayStep_of_pos _ hpos] at hkyeq ⊢
      have hmy : (⌊p.y⌋ : ℝ) + 1 ≤ (res.mapY : ℝ) := by
        rw [hkyeq]
        push_cast
        have : (1 : ℝ) ≤ (ky : ℝ) := by exact_mod_cast hk1
        linarith
      have hfl : p.y < (⌊p.y⌋ : ℝ) + 1 := Int.lt_floor_add_one p.y
      apply div_nonneg
      · push_cast
        linarith
      · exact hpos.le

theorem map16_bordered : map16.Bordered := by
  have key : ∀ i : ℕ, i < 16 → ∀ j : ℕ, j < 16 →
      (i = 0 ∨ i = 15 ∨ j = 0 ∨ j = 15) → map16.code i j ≠ 0 := by decide
  intro cx cy hx0 hxw hy0 hyh hor
  have hw : map16.width = 16 := rfl
  have hh : map16.height = 16 := rfl
  rw [hw] at hxw hor
  rw [hh] at hyh hor
  have hi : cx = (cx.toNat : ℤ) := (Int.toNat_of_nonneg hx0).symm
  have hj : cy = (cy.toNat : ℤ) := (Int.toNat_of_nonneg hy0).symm
  have hiw : cx.toNat < 16 := by omega
  have hjh : cy.toNat < 16 := by omega
  have hor' : cx.toNat = 0 ∨ cx.toNat = 15 ∨ cy.toNat = 0 ∨ cy.toNat = 15 := by omega
  rw [hi, hj]
  exact key cx.toNat hiw cy.toNat hjh hor'

/-- Witness for C1: the 16×16 bordered grid, camera strictly inside the free
cell (8, 8) at position (8.5, 8.5), angular offset 0. -/
theorem cast_ray_terminates_nonneg_witness :
    ∃ d s, cast_ray map16 ⟨17/2, 17/2, 0, 2⟩ 0 = some (d, s) ∧ 0 ≤ d :=
  cast_ray_terminates_nonneg map16 ⟨17/2, 17/2, 0, 2⟩ 0 map16_bordered
    (by show (0 : ℤ) ≤ ⌊(17/2 : ℝ)⌋; norm_num)
    (by show ⌊(17/2 : ℝ)⌋ < ((16 : ℕ) : ℤ); norm_num)
    (by show (0 : ℤ) ≤ ⌊(17/2 : ℝ)⌋; norm_num)
    (by show ⌊(17/2 : ℝ)⌋ < ((16 : ℕ) : ℤ); norm_num)
    (by show map16.code ⌊(17/2 : ℝ)⌋ ⌊(17/2 : ℝ)⌋ = 0
        rw [show ⌊(17/2 : ℝ)⌋ = 8 by norm_num]
        decide)
    (by show ((⌊(17/2 : ℝ)⌋ : ℤ) : ℝ) < 17/2
        rw [show ⌊(17/2 : ℝ)⌋ = 8 by norm_num]
        norm_num)
    (by show ((⌊(17/2 : ℝ)⌋ : ℤ) : ℝ) < 17/2
        rw [show ⌊(17/2 : ℝ)⌋ = 8 by norm_num]
        norm_num)

/-- Claim C2: whenever the DDA loop of the caster returns a hit, the batch
caster's accumulated formula `side_dist_axis - delta_dist_axis` for the axis
last stepped equals (exactly, in the real model) the closed-form re-derivation
from map index, camera position, direction component and step sign that
`cast_ray` returns. -/
theorem perp_dist_forms_agree (m : Map) (p : Player) (off : ℝ) (res : DDAHit)
    (h : castRayHit m p off = some res) :
    (res.side = false → ∃ v, res.sideX = some v ∧
      cast_ray m p off = some (v - |1 / Real.cos (p.direction + off)|, false)) ∧
    (res.side = true → ∃ v, res.sideY = some v ∧
      cast_ray m p off = some (v - |1 / Real.sin (p.direction + off)|, true)) := by
  have hloop : ddaLoop m (rayDelta (Real.cos (p.direction + off)))
      (rayDelta (Real.sin (p.direction + off)))
      (rayStep (Real.cos (p.direction + off))) (rayStep (Real.sin (p.direction + off)))
      (m.width + m.height) ⌊p.x⌋ ⌊p.y⌋
      (raySideInit p.x ⌊p.x⌋ (Real.cos (p.direction + off)))
      (raySideInit p.y ⌊p.y⌋ (Real.sin (p.direction + off))) = some res := by
    simpa [castRayHit] using h
  have hnz : rayDelta (Real.cos (p.direction + off)) ≠ none ∨
      rayDelta (Real.sin (p.direction + off)) ≠ none := by
    by_cases hc : Real.cos (p.direction + off) = 0
    · right
      intro hn
      have hs0 := (rayDelta_eq_none _).mp hn
      have hpyth := Real.sin_sq_add_cos_sq (p.direction + off)
      rw [hs0, hc] at hpyth
      norm_num at hpyth
    · left
      intro hn
      exact hc ((rayDelta_eq_none _).mp hn)
  have hinv := ddaLoop_inv m (Real.cos (p.direction + off)) (Real.sin (p.direction + off))
    p.x p.y (rayDelta (Real.cos (p.direction + off)))
    (rayDelta (Real.sin (p.direction + off)))
    (rayStep (Real.cos (p.direction + off))) (rayStep (Real.sin (p.direction + off)))
    (fun v hv => rayDelta_val _ v hv)
    (fun v hv => rayDelta_val _ v hv)
    hnz
    (m.width + m.height) ⌊p.x⌋ ⌊p.y⌋ _ _ res
    (raySideInit_none_iff _ _ _)
    (fun v hv => raySideInit_val _ _ _ v hv)
    (raySideInit_none_iff _ _ _)
    (fun v hv => raySideInit_val _ _ _ v hv)
    hloop
  have hray : cast_ray m p off =
      some (if res.side = false then
              ((res.mapX : ℝ) - p.x +
                (1 - (rayStep (Real.cos (p.direction + off)) : ℝ)) / 2) /
                Real.cos (p.direction + off)
            else ((res.mapY : ℝ) - p.y +
                (1 - (rayStep (Real.sin (p.direction + off)) : ℝ)) / 2) /
                Real.sin (p.direction + off),
            res.side) := by
    simp only [cast_ray, h, Option.map_some']
  constructor
  · intro hside
    obtain ⟨dx, v, hdx, hsx, heq⟩ := hinv.1 hside
    refine ⟨v, hsx, ?_⟩
    have hdxv := (rayDelta_eq_some _ _ hdx).2
    rw [hray, if_pos hside, hside, ← hdxv, heq]
  · intro hside
    obtain ⟨dy, v, hdy, hsy, heq⟩ := hinv.2 hside
    refine ⟨v, hsy, ?_⟩
    have hside' : ¬ res.side = false := by simp [hside]
    have hdyv := (rayDelta_eq_some _ _ hdy).2
    rw [hray, if_neg hside', hside, ← hdyv, heq]

theorem map16_hit : castRayHit map16 p16 0 = some ⟨15, 8, some 8, none, false⟩ := by
  have hfloor8 : ⌊(8 : ℝ)⌋ = (8 : ℤ) := by norm_num
  have w9 : map16.is_wall (9 : ℝ) (8 : ℝ) = false := by
    unfold Map.is_wall
    rw [show ⌊(9 : ℝ)⌋ = 9 by norm_num, show ⌊(8 : ℝ)⌋ = 8 by norm_num]
    decide
  have w10 : map16.is_wall (10 : ℝ) (8 : ℝ) = false := by
    unfold Map.is_wall
    rw [show ⌊(10 : ℝ)⌋ = 10 by norm_num, show ⌊(8 : ℝ)⌋ = 8 by norm_num]
    decide
  have w11 : map16.is_wall (11 : ℝ) (8 : ℝ) = false := by
    unfold Map.is_wall
    rw [show ⌊(11 : ℝ)⌋ = 11 by norm_num, show ⌊(8 : ℝ)⌋ = 8 by norm_num]
    decide
  have w12 : map16.is_wall (12 : ℝ) (8 : ℝ) = false := by
    unfold Map.is_wall
    rw [show ⌊(12 : ℝ)⌋ = 12 by norm_num, show ⌊(8 : ℝ)⌋ = 8 by norm_num]
    decide
  have w13 : map16.is_wall (13 : ℝ) (8 : ℝ) = false := by
    unfold Map.is_wall
    rw [show ⌊(13 : ℝ)⌋ = 13 by norm_num, show ⌊(8 : ℝ)⌋ = 8 by norm_num]
    decide
  have w14 : map16.is_wall (14 : ℝ) (8 : ℝ) = false := by
    unfold Map.is_wall
    rw [show ⌊(14 : ℝ)⌋ = 14 by norm_num, show ⌊(8 : ℝ)⌋ = 8 by norm_num]
    decide
  have w15 : map16.is_wall (15 : ℝ) (8 : ℝ) = true := by
    unfold Map.is_wall
    rw [show ⌊(15 : ℝ)⌋ = 15 by norm_num, show ⌊(8 : ℝ)⌋ = 8 by norm_num]
    decide
  have hd1 : rayDelta (1 : ℝ) = some 1 := by
    unfold rayDelta
    norm_num
  have hd0 : rayDelta (0 : ℝ) = none := (rayDelta_eq_none 0).mpr rfl
  have hs1 : rayStep (1 : ℝ) = 1 := rayStep_of_pos 1 one_pos
  have hi1 : raySideInit 8 8 (1 : ℝ) = some 1 := by
    unfold raySideInit
    rw [hd1]
    norm_num [omul]
  have hi0 : raySideInit 8 8 (0 : ℝ) = none := raySideInit_zero 8 8
  have hw16 : map16.width = 16 := rfl
  have hh16 : map16.height = 16 := rfl
  simp only [castRayHit, p16, Player.new, add_zero, Real.cos_zero, Real.sin_zero,
    hfloor8, hd1, hd0, hs1, hi1, hi0, hw16, hh16]
  norm_num [ddaLoop, oLt, oAdd, w9, w10, w11, w12, w13, w14, w15]

/-- Claim C8: on the 16×16 grid bordered by wall code 1 with empty interior,
camera at (8.0, 8.0) facing angle 0, a ray with zero angular offset returns
perpendicular distance exactly 7 with a vertical (x-side) crossing, and the
hit cell is the right border wall: column 15 = width - 1, cell code 1. -/
theorem end_to_end_16 :
    cast_ray map16 p16 0 = some (7, false) ∧
    castRayHit map16 p16 0 = some ⟨15, 8, some 8, none, false⟩ ∧
    map16.code 15 8 = 1 ∧ (15 : ℤ) = (map16.width : ℤ) - 1 := by
  refine ⟨?_, map16_hit, by decide, by decide⟩
  simp only [cast_ray, map16_hit, Option.map_some']
  simp only [p16, Player.new, add_zero, Real.cos_zero, Real.sin_zero,
    rayStep_of_pos 1 one_pos]
  norm_num

/-- Witness for C2: on the 16×16 end-to-end scenario, the accumulated side
distance 8 minus delta distance 1 equals the closed-form distance 7 that
`cast_ray` returns. -/
theorem perp_dist_forms_agree_witness :
    ((⟨15, 8, some 8, none, false⟩ : DDAHit).side = false →
      ∃ v, (⟨15, 8, some 8, none, false⟩ : DDAHit).sideX = some v ∧
        cast_ray map16 p16 0 = some (v - |1 / Real.cos (p16.direction + 0)|, false)) ∧
    ((⟨15, 8, some 8, none, false⟩ : DDAHit).side = true →
      ∃ v, (⟨15, 8, some 8, none, false⟩ : DDAHit).sideY = some v ∧
        cast_ray map16 p16 0 = some (v - |1 / Real.sin (p16.direction + 0)|, true)) :=
  perp_dist_forms_agree map16 p16 0 ⟨15, 8, some 8, none, false⟩ map16_hit

/-- Claim C5 (amended): in the single-ray caster `cast_ray`, an exactly-zero
direction component receives the infinite sentinel delta (`none`) and that
axis is never selected as the stepping axis: its grid index and side distance
are unchanged at the hit and the side flag names the other axis.  (The batch
caster's finite `1e30` sentinel does not have this property; see the
counterexample.) -/
theorem cast_ray_zero_axis (m : Map) (p : Player) (off : ℝ) (res : DDAHit)
    (h : castRayHit m p off = some res) :
    (Real.sin (p.direction + off) = 0 →
      rayDelta (Real.sin (p.direction + off)) = none ∧
      res.side = false ∧ res.mapY = ⌊p.y⌋ ∧ res.sideY = none) ∧
    (Real.cos (p.direction + off) = 0 →
      rayDelta (Real.cos (p.direction + off)) = none ∧
      res.side = true ∧ res.mapX = ⌊p.x⌋ ∧ res.sideX = none) := by
  have hloop : ddaLoop m (rayDelta (Real.cos (p.direction + off)))
      (rayDelta (Real.sin (p.direction + off)))
      (rayStep (Real.cos (p.direction + off))) (rayStep (Real.sin (p.direction + off)))
      (m.width + m.height) ⌊p.x⌋ ⌊p.y⌋
      (raySideInit p.x ⌊p.x⌋ (Real.cos (p.direction + off)))
      (raySideInit p.y ⌊p.y⌋ (Real.sin (p.direction + off))) = some res := by
    simpa [castRayHit] using h
  constructor
  · intro h0
    have hdn : rayDelta (Real.sin (p.direction + off)) = none :=
      (rayDelta_eq_none _).mpr h0
    have hcos : Real.cos (p.direction + off) ≠ 0 := by
      intro h1
      have hpyth := Real.sin_sq_add_cos_sq (p.direction + off)
      rw [h0, h1] at hpyth
      norm_num at hpyth
    have hsn : raySideInit p.y ⌊p.y⌋ (Real.sin (p.direction + off)) = none :=
      (raySideInit_none_iff _ _ _).mpr hdn
    rw [hsn, rayDelta_of_ne _ hcos, raySideInit_of_ne _ _ _ hcos] at hloop
    obtain ⟨hside, hmy, hsdy⟩ := ddaLoop_sideY_none m _ _ _ _ _ _ _ _ res hloop
    exact ⟨hdn, hside, hmy, hsdy⟩
  · intro h0
    have hdn : rayDelta (Real.cos (p.direction + off)) = none :=
      (rayDelta_eq_none _).mpr h0
    have hsn : raySideInit p.x ⌊p.x⌋ (Real.cos (p.direction + off)) = none :=
      (raySideInit_none_iff _ _ _).mpr hdn
    rw [hsn] at hloop
    obtain ⟨hside, hmx, hsdx⟩ := ddaLoop_sideX_none m _ _ _ _ _ _ _ _ res hloop
    exact ⟨hdn, hside, hmx, hsdx⟩

/-- Witness for C5 (amended): the end-to-end scenario has an exactly zero y
direction component; the y axis keeps the infinite sentinel and is never
stepped. -/
theorem cast_ray_zero_axis_witness :
    rayDelta (Real.sin (p16.direction + 0)) = none ∧
    (⟨15, 8, some 8, none, false⟩ : DDAHit).side = false ∧
    (⟨15, 8, some 8, none, false⟩ : DDAHit).mapY = ⌊p16.y⌋ ∧
    (⟨15, 8, some 8, none, false⟩ : DDAHit).sideY = none :=
  (cast_ray_zero_axis map16 p16 0 ⟨15, 8, some 8, none, false⟩ map16_hit).1
    (by simp [p16, Player.new])

/-- Counterexample for C5: in the batch caster the sentinel for a zero
direction component is the finite `1e30`, not an infinity, and the
zero-component axis can be selected as the stepping axis.  For state `rc5`
the single screen column (w = 1, x = 0) has ray direction `(10⁻³⁸, 0)` — the
y component is exactly zero — yet the first DDA iteration compares
`5·10³⁷ < 5·10²⁹`, fails, steps the y axis (`side = true`) and changes the y
grid index from 1 to 2. -/
theorem gr_zero_axis_stepped_counterexample :
    rc5.dir.2 + rc5.plane.2 * (2 * ((0 : ℕ) : ℝ) / ((1 : ℕ) : ℝ) - 1) = 0 ∧
    grDelta (rc5.dir.2 + rc5.plane.2 * (2 * ((0 : ℕ) : ℝ) / ((1 : ℕ) : ℝ) - 1)) =
      10 ^ 30 ∧
    grCastColumn rc5 1 0 6 = some (1, 2, 5 * 10 ^ 37, 15 * 10 ^ 29, true) := by
  have hrdY : rc5.dir.2 + rc5.plane.2 * (2 * ((0 : ℕ) : ℝ) / ((1 : ℕ) : ℝ) - 1) = 0 := by
    simp only [rc5]
    norm_num
  have hg : grIndexUpdate 1 1 = 2 := by decide
  refine ⟨hrdY, ?_, ?_⟩
  · rw [hrdY]
    unfold grDelta
    norm_num
  · have hfl : floatToUsize (3 / 2 : ℝ) = 1 := by
      unfold floatToUsize
      rw [show ⌊(3 / 2 : ℝ)⌋ = 1 by norm_num]
      norm_num
    have hA : grCastColumn rc5 1 0 6 =
        grDdaLoop [[1, 1, 1], [1, 0, 1], [1, 1, 1]] (10 ^ 38) (10 ^ 30) 1 1 6 1 1
          (5 * 10 ^ 37) (5 * 10 ^ 29) := by
      simp only [grCastColumn, rc5, hfl]
      norm_num [grDelta, grStep, grSideInit]
    rw [hA, show (6 : ℕ) = 5 + 1 from rfl, grDdaLoop,
      if_neg (by norm_num : ¬((5 * 10 ^ 37 : ℝ) < 5 * 10 ^ 29)), hg]
    norm_num [List.getD]

/-- Counterexample for C9: `render_scene` (src/main.rs) computes the end row
as `h/2 + wall_height/2` without the `min(h - 1, ·)` clamp the claim states.
At viewport height 480 and perpendicular distance 1/2, the capped wall height
is 480 and the computed end row is 480, whereas the claim's formula gives
`min(479, 480) = 479`. -/
theorem render_end_formula_counterexample :
    render_wall_height 480 (1 / 2) = 480 ∧
    render_end 480 (1 / 2) = 480 ∧
    min (480 - 1) (480 / 2 + render_wall_height 480 (1 / 2) / 2) = 479 := by
  have hwh : render_wall_height 480 (1 / 2 : ℝ) = 480 := by
    unfold render_wall_height floatToUsize
    norm_num
  refine ⟨hwh, ?_, ?_⟩
  · unfold render_end
    rw [hwh]
  · rw [hwh]
    decide

/-- Claim C9 (amended): for every positive perpendicular distance the drawn
segment stays inside the viewport's pixel rows, but the two implementations
achieve this differently.  `render_scene` (src/main.rs) caps the wall height
at the viewport height and draws the half-open row range `start..end` with
`start = h/2 - height/2` (saturating) and `end = h/2 + height/2 ≤ h`, without
clamping `end` to `h - 1`; the batch caster (GR) leaves the height uncapped
but clamps `draw_start` below at 0 and `draw_end` above at `h - 1`, so the
emitted `u16` endpoints both lie in `[0, h - 1]`. -/
theorem projector_bounds (h : ℕ) (perp : ℝ) (hp : 0 < perp) (hh : 1 ≤ h) :
    render_wall_height h perp ≤ h ∧
    render_end h perp ≤ h ∧
    render_start h perp ≤ h ∧
    (grProject h perp).1 ≤ h - 1 ∧
    (grProject h perp).2 ≤ h - 1 := by
  have hwh : render_wall_height h perp ≤ h := min_le_right _ _
  refine ⟨hwh, ?_, ?_, ?_, ?_⟩
  · unfold render_end
    have : render_wall_height h perp / 2 ≤ h / 2 := Nat.div_le_div_right hwh
    omega
  · unfold render_start
    omega
  · have hlh : 0 < (h : ℝ) / perp := by
      apply div_pos _ hp
      exact_mod_cast hh
    unfold grProject u16OfFloat
    simp only
    by_cases hds : -((h : ℝ) / perp) / 2 + (h : ℝ) / 2 < 0
    · rw [if_pos hds]
      norm_num
    · rw [if_neg hds]
      have hlt : -((h : ℝ) / perp) / 2 + (h : ℝ) / 2 < h := by
        have hhr : (0 : ℝ) < (h : ℝ) := by exact_mod_cast hh
        nlinarith
      have hfl : ⌊-((h : ℝ) / perp) / 2 + (h : ℝ) / 2⌋ ≤ (h : ℤ) - 1 := by
        have := Int.floor_lt.mpr (by exact_mod_cast hlt :
          -((h : ℝ) / perp) / 2 + (h : ℝ) / 2 < ((h : ℤ) : ℝ))
        omega
      have : (⌊-((h : ℝ) / perp) / 2 + (h : ℝ) / 2⌋).toNat ≤ h - 1 := by omega
      omega
  · have hlh : 0 < (h : ℝ) / perp := by
      apply div_pos _ hp
      exact_mod_cast hh
    unfold grProject u16OfFloat
    simp only
    by_cases hde : (h : ℝ) ≤ (h : ℝ) / perp / 2 + (h : ℝ) / 2
    · rw [if_pos hde]
      have hcast : (h : ℝ) - 1 = ((h - 1 : ℕ) : ℝ) := by
        push_cast [hh]
        ring
      rw [hcast, Int.floor_natCast]
      simp
    · rw [if_neg hde]
      push_neg at hde
      have hfl : ⌊(h : ℝ) / perp / 2 + (h : ℝ) / 2⌋ ≤ (h : ℤ) - 1 := by
        have := Int.floor_lt.mpr (by exact_mod_cast hde :
          (h : ℝ) / perp / 2 + (h : ℝ) / 2 < ((h : ℤ) : ℝ))
        omega
      have : (⌊(h : ℝ) / perp / 2 + (h : ℝ) / 2⌋).toNat ≤ h - 1 := by omega
      omega

/-- Witness for C9 (amended) at viewport height 480 and distance 1/2. -/
theorem projector_bounds_witness :
    render_wall_height 480 (1 / 2) ≤ 480 ∧
    render_end 480 (1 / 2) ≤ 480 ∧
    render_start 480 (1 / 2) ≤ 480 ∧
    (grProject 480 (1 / 2)).1 ≤ 480 - 1 ∧
    (grProject 480 (1 / 2)).2 ≤ 480 - 1 :=
  projector_bounds 480 (1 / 2) (by norm_num) (by norm_num)
